import Mathlib

/-!
Verification of the compliance-assistant core: sentence segmentation
(`pdf_reader.split_into_sentences`), obligation classification
(`obligation_finder.extract_obligations` / `filter_obligations` /
`process_sentences`) and the tabular export stage
(`excel_exporter.create_obligation_dataframe`), shallowly embedded over
`List Char` strings.  Python string primitives (`str.strip`, `str.lower`,
`str.isupper`, `str.isalpha`, the `\b` regex word boundary, `\s`
whitespace) are modelled on ASCII via Lean's `Char` predicates.
-/

namespace ComplianceAssistant

/-- Word characters for the regex `\b` word boundary: alphanumeric or
underscore. -/
def isWordChar (c : Char) : Bool := c.isAlphanum || c == '_'

/-- The pattern `kw` is a prefix of `s` and is followed by a word boundary
(end of string or a non-word character): one position of the search
`re.search(r'\b<kw>\b', s)` once the left boundary is known to hold. -/
def wordMatchHere : List Char → List Char → Bool
  | [], [] => true
  | [], c :: _ => !isWordChar c
  | _ :: _, [] => false
  | k :: ks, c :: cs => k == c && wordMatchHere ks cs

/-- Scan of `re.search(r'\b<kw>\b', s)`: try every start position;
`leftOk` records whether the left word boundary holds at the current
position (true at the start of the string, and after a non-word
character). -/
def searchFrom (kw : List Char) : List Char → Bool → Bool
  | [], leftOk => leftOk && wordMatchHere kw []
  | c :: cs, leftOk =>
      (leftOk && wordMatchHere kw (c :: cs)) || searchFrom kw cs (!isWordChar c)

/-- Embeds `re.search(r'\b' + re.escape(keyword) + r'\b', sentence.lower())`
from `obligation_finder.py`: whole-word search for the (lower-case) keyword
in the lower-cased sentence. -/
def hasKeyword (kw : List Char) (sentence : List Char) : Bool :=
  searchFrom kw (sentence.map Char.toLower) true

/-- `ObligationFinder.OBLIGATION_KEYWORDS = ['must', 'shall', 'required',
'mandatory']`, in declaration order. -/
def OBLIGATION_KEYWORDS : List (List Char) :=
  ["must".data, "shall".data, "required".data, "mandatory".data]

/-- `ObligationFinder.contains_obligation_keyword`. -/
def contains_obligation_keyword (sentence : List Char) : Bool :=
  OBLIGATION_KEYWORDS.any (fun kw => hasKeyword kw sentence)

/-- The `found_keywords` list built in `extract_obligations`: the keywords
that match, collected in declaration order of `OBLIGATION_KEYWORDS`. -/
def foundKeywords (sentence : List Char) : List (List Char) :=
  OBLIGATION_KEYWORDS.filter (fun kw => hasKeyword kw sentence)

/-- Python `str.strip()`: drop leading and trailing whitespace. -/
def pyStrip (s : List Char) : List Char :=
  ((s.dropWhile Char.isWhitespace).reverse.dropWhile Char.isWhitespace).reverse

/-- Python `', '.join(found_keywords)`. -/
def joinComma (kws : List (List Char)) : List Char :=
  List.intercalate [',', ' '] kws

/-- An obligation record `{'text': ..., 'keywords': ...}` as built by
`ObligationFinder.extract_obligations`. -/
structure Obligation where
  text : List Char
  keywords : List Char
deriving DecidableEq, Repr

/-- The record built for one sentence that contains a keyword:
`{'text': sentence.strip(), 'keywords': ', '.join(found_keywords)}`. -/
def mkObligation (sentence : List Char) : Obligation :=
  ⟨pyStrip sentence, joinComma (foundKeywords sentence)⟩

/-- `ObligationFinder.extract_obligations`: keep each sentence containing an
obligation keyword, as a record, in input order. -/
def extract_obligations (sentences : List (List Char)) : List Obligation :=
  sentences.filterMap (fun s =>
    if contains_obligation_keyword s then some (mkObligation s) else none)

/-- Count of alphabetic characters (`sum(c.isalpha() for c in text)`). -/
def countAlpha (s : List Char) : Nat := (s.filter Char.isAlpha).length

/-- Python `str.isupper()`: at least one cased character, and no lower-case
character. -/
def pyIsUpper (s : List Char) : Bool :=
  s.any (fun c => c.isUpper || c.isLower) && s.all (fun c => !c.isLower)

/-- The body of the filtering loop of `ObligationFinder.filter_obligations`:
drop if `len(text) < min_length`; else drop if `text.isupper() and
len(text) < 100`; else drop if `alpha_chars < len(text) * 0.5` (for
integers, `2 * alpha_chars < len(text)`); else keep. -/
def keepObligation (min_length : Nat) (ob : Obligation) : Bool :=
  if ob.text.length < min_length then false
  else if pyIsUpper ob.text && ob.text.length < 100 then false
  else if 2 * countAlpha ob.text < ob.text.length then false
  else true

/-- `ObligationFinder.filter_obligations` (default `min_length = 20`). -/
def filter_obligations (obligations : List Obligation)
    (min_length : Nat := 20) : List Obligation :=
  obligations.filter (keepObligation min_length)

/-- `ObligationFinder.process_sentences`: extraction followed by the quality
filter at its default threshold. -/
def process_sentences (sentences : List (List Char)) : List Obligation :=
  filter_obligations (extract_obligations sentences)

/-- Model of `re.sub(r'\s+', ' ', s)`: each maximal whitespace run becomes
one space; `prevWs` records whether the previous character was whitespace
(so only the first character of a run emits the space). -/
def collapseWsAux : Bool → List Char → List Char
  | _, [] => []
  | prevWs, c :: cs =>
      if c.isWhitespace then
        (if prevWs then [] else [' ']) ++ collapseWsAux true cs
      else c :: collapseWsAux false cs

/-- `re.sub(r'\s+', ' ', s)` applied to a string. -/
def collapseWs (s : List Char) : List Char := collapseWsAux false s

/-- Sentence-terminal punctuation of the split pattern `[.!?]`. -/
def isSentenceEnd (c : Char) : Bool := c == '.' || c == '!' || c == '?'

/-- Model of `re.split(r'(?<=[.!?])\s+(?=[A-Z])', s)`: split at each maximal
whitespace run that is preceded by sentence-terminal punctuation and
followed by an upper-case letter; the run is consumed, the punctuation
stays with the preceding segment.  `acc` is the reversed current segment,
`pend` the reversed whitespace run currently being read. -/
def reSplitGo : List Char → List Char → List Char → List (List Char)
  | acc, pend, [] => [(pend ++ acc).reverse]
  | acc, pend, c :: cs =>
      if c.isWhitespace then
        reSplitGo acc (c :: pend) cs
      else if !pend.isEmpty
          && (match acc.head? with | some p => isSentenceEnd p | none => false)
          && c.isUpper then
        acc.reverse :: reSplitGo [c] [] cs
      else
        reSplitGo (c :: (pend ++ acc)) [] cs

/-- The split of `pdf_reader.py` line 81. -/
def reSplit (s : List Char) : List (List Char) := reSplitGo [] [] s

/-- `PDFReader.split_into_sentences`: normalise whitespace, split at
sentence boundaries, strip each segment and keep those longer than 10
characters. -/
def split_into_sentences (text : List Char) : List (List Char) :=
  let cleaned := collapseWs (pyStrip text)
  ((reSplit cleaned).map pyStrip).filter
    (fun s => !s.isEmpty && decide (10 < s.length))

/-- One row of the exported table, with the columns of
`ExcelExporter.create_obligation_dataframe` in order: ID, Obligation Text,
Source Document, Keywords, Owner, Next Due Date, Status. -/
structure ExportRow where
  rowId : List Char
  obligationText : List Char
  sourceDocument : List Char
  keywords : List Char
  owner : List Char
  nextDueDate : List Char
  status : List Char
deriving DecidableEq, Repr

/-- The sentinel placed in the Owner, Next Due Date and Status columns. -/
def notStarted : List Char := "Not Started".data

/-- Python `f'OBL-{i:03d}'`: the identifier with the row number zero-padded
to at least three digits. -/
def formatOblId (i : Nat) : List Char :=
  let ds := Nat.toDigits 10 i
  "OBL-".data ++ (List.replicate (3 - ds.length) '0' ++ ds)

/-- The row built for the `i`-th obligation (1-based) in
`create_obligation_dataframe`. -/
def mkRow (i : Nat) (source_document : List Char) (ob : Obligation) :
    ExportRow :=
  ⟨formatOblId i, ob.text, source_document, ob.keywords,
    notStarted, notStarted, notStarted⟩

/-- The enumeration loop `for i, obligation in enumerate(obligations, 1)`. -/
def rowsFrom (source_document : List Char) : Nat → List Obligation →
    List ExportRow
  | _, [] => []
  | i, ob :: rest => mkRow i source_document ob ::
      rowsFrom source_document (i + 1) rest

/-- `ExcelExporter.create_obligation_dataframe` as the list of rows of the
resulting table. -/
def create_obligation_dataframe (obligations : List Obligation)
    (source_document : List Char) : List ExportRow :=
  rowsFrom source_document 1 obligations

/-- Reference predicate, following the spec's words: the keyword occurs in
the sentence case-insensitively and as a whole word — some substring of
`s` lower-cases to `kw`, the character before it (if any) is not a word
character, and the character after it (if any) is not a word character. -/
def MatchesWholeWordCI (kw s : List Char) : Prop :=
  ∃ pre mid post, s = pre ++ mid ++ post ∧ mid.map Char.toLower = kw ∧
    (∀ c, pre.getLast? = some c → isWordChar c = false) ∧
    (∀ c, post.head? = some c → isWordChar c = false)

/-- Left word-boundary condition of a match whose characters before the
match are `pre`: at the start of the string the flag `leftOk` decides, and
otherwise the character just before the match must not be a word
character. -/
def leftBoundary (leftOk : Bool) (pre : List Char) : Prop :=
  match pre.getLast? with
  | none => leftOk = true
  | some c => isWordChar c = false

/-- The fate of a single sentence under the whole classifier: a record if
the sentence matches a keyword and survives the quality filter at its
default threshold, `none` otherwise. -/
def perSentence (s : List Char) : Option Obligation :=
  if contains_obligation_keyword s then
    if keepObligation 20 (mkObligation s) then some (mkObligation s) else none
  else none

/-- Soundness specification of the sentence split, following the spec's
words: the segments partition the input, and at each cut a non-empty run
of whitespace was consumed, the preceding segment ends with a
sentence-terminal punctuation mark, and the next segment starts with an
upper-case letter. -/
inductive SplitSpec : List Char → List (List Char) → Prop
  | single (s : List Char) : SplitSpec s [s]
  | boundary (a ws t : List Char) (rest : List (List Char))
      (hne : ws ≠ []) (hws : ∀ c ∈ ws, c.isWhitespace = true)
      (hterm : ∃ p, a.getLast? = some p ∧ isSentenceEnd p = true)
      (hupper : ∃ u, t.head? = some u ∧ u.isUpper = true)
      (hrest : SplitSpec t rest) : SplitSpec (a ++ ws ++ t) (a :: rest)

/-- There is a split boundary at this position: the character is
sentence-terminal punctuation, immediately followed by whitespace and, at
the end of that whitespace run, an upper-case letter. -/
def boundaryAt (c : Char) (cs : List Char) : Bool :=
  isSentenceEnd c
    && (match cs.head? with | some d => d.isWhitespace | none => false)
    && (match cs.dropWhile Char.isWhitespace with
        | u :: _ => u.isUpper
        | [] => false)

/-- Some position of the string is a split boundary (completeness measure
for the sentence split: output segments contain none). -/
def hasBoundary : List Char → Bool
  | [] => false
  | c :: cs => boundaryAt c cs || hasBoundary cs

end ComplianceAssistant

namespace ComplianceAssistant

/-! Character-level facts: the ASCII character classes involved, reduced to
arithmetic over code points. -/

theorem charEq_iff_toNat (a b : Char) : a = b ↔ a.toNat = b.toNat := by
  rw [Char.ext_iff, UInt32.ext_iff]; exact Iff.rfl

theorem uint32_le_iff (a b : UInt32) : a ≤ b ↔ a.toNat ≤ b.toNat := by
  rw [UInt32.le_def, BitVec.le_def]; exact Iff.rfl

theorem isUpper_eq (c : Char) :
    c.isUpper = (decide (65 ≤ c.toNat) && decide (c.toNat ≤ 90)) := by
  have d1 : decide (c.val ≥ 65) = decide (65 ≤ c.toNat) :=
    decide_eq_decide.mpr (by rw [ge_iff_le, uint32_le_iff]; exact Iff.rfl)
  have d2 : decide (c.val ≤ 90) = decide (c.toNat ≤ 90) :=
    decide_eq_decide.mpr (by rw [uint32_le_iff]; exact Iff.rfl)
  rw [show c.isUpper = (decide (c.val ≥ 65) && decide (c.val ≤ 90)) from rfl, d1, d2]

theorem isLower_eq (c : Char) :
    c.isLower = (decide (97 ≤ c.toNat) && decide (c.toNat ≤ 122)) := by
  have d1 : decide (c.val ≥ 97) = decide (97 ≤ c.toNat) :=
    decide_eq_decide.mpr (by rw [ge_iff_le, uint32_le_iff]; exact Iff.rfl)
  have d2 : decide (c.val ≤ 122) = decide (c.toNat ≤ 122) :=
    decide_eq_decide.mpr (by rw [uint32_le_iff]; exact Iff.rfl)
  rw [show c.isLower = (decide (c.val ≥ 97) && decide (c.val ≤ 122)) from rfl, d1, d2]

theorem isDigit_eq (c : Char) :
    c.isDigit = (decide (48 ≤ c.toNat) && decide (c.toNat ≤ 57)) := by
  have d1 : decide (c.val ≥ 48) = decide (48 ≤ c.toNat) :=
    decide_eq_decide.mpr (by rw [ge_iff_le, uint32_le_iff]; exact Iff.rfl)
  have d2 : decide (c.val ≤ 57) = decide (c.toNat ≤ 57) :=
    decide_eq_decide.mpr (by rw [uint32_le_iff]; exact Iff.rfl)
  rw [show c.isDigit = (decide (c.val ≥ 48) && decide (c.val ≤ 57)) from rfl, d1, d2]

theorem charBeq_eq (a b : Char) : (a == b) = decide (a = b) := by
  cases h : a == b
  · exact (decide_eq_false (fun he => by rw [he] at h; simp at h)).symm
  · exact (decide_eq_true (by exact eq_of_beq h)).symm

theorem isWhitespace_iff (c : Char) : c.isWhitespace = true ↔
    c.toNat = 32 ∨ c.toNat = 9 ∨ c.toNat = 13 ∨ c.toNat = 10 := by
  rw [show c.isWhitespace = (decide (c = ' ') || decide (c = '\t')
    || decide (c = '\x0d') || decide (c = '\n')) from rfl]
  simp only [Bool.or_eq_true, decide_eq_true_eq, charEq_iff_toNat]
  rw [show (' ').toNat = 32 from rfl, show ('\t').toNat = 9 from rfl,
    show ('\x0d').toNat = 13 from rfl, show ('\n').toNat = 10 from rfl]
  tauto

theorem isUpper_iff (c : Char) :
    c.isUpper = true ↔ 65 ≤ c.toNat ∧ c.toNat ≤ 90 := by
  rw [isUpper_eq]; simp

theorem isLower_iff (c : Char) :
    c.isLower = true ↔ 97 ≤ c.toNat ∧ c.toNat ≤ 122 := by
  rw [isLower_eq]; simp

theorem isAlpha_iff (c : Char) : c.isAlpha = true ↔
    (65 ≤ c.toNat ∧ c.toNat ≤ 90) ∨ (97 ≤ c.toNat ∧ c.toNat ≤ 122) := by
  rw [show c.isAlpha = (c.isUpper || c.isLower) from rfl]
  simp only [Bool.or_eq_true, isUpper_iff, isLower_iff]

theorem isWordChar_iff (c : Char) : isWordChar c = true ↔
    (65 ≤ c.toNat ∧ c.toNat ≤ 90) ∨ (97 ≤ c.toNat ∧ c.toNat ≤ 122) ∨
    (48 ≤ c.toNat ∧ c.toNat ≤ 57) ∨ c.toNat = 95 := by
  rw [show isWordChar c = ((c.isUpper || c.isLower || c.isDigit) || (c == '_'))
    from rfl]
  simp only [Bool.or_eq_true, isUpper_iff, isLower_iff, charBeq_eq,
    decide_eq_true_eq, charEq_iff_toNat]
  rw [show ('_').toNat = 95 from rfl, isDigit_eq]
  simp only [Bool.and_eq_true, decide_eq_true_eq]
  tauto

theorem isSentenceEnd_iff (c : Char) : isSentenceEnd c = true ↔
    c.toNat = 46 ∨ c.toNat = 33 ∨ c.toNat = 63 := by
  rw [show isSentenceEnd c = ((c == '.') || (c == '!') || (c == '?')) from rfl]
  simp only [Bool.or_eq_true, charBeq_eq, decide_eq_true_eq, charEq_iff_toNat]
  rw [show ('.').toNat = 46 from rfl, show ('!').toNat = 33 from rfl,
    show ('?').toNat = 63 from rfl]
  tauto

theorem ws_not_word {c : Char} (h : c.isWhitespace = true) :
    isWordChar c = false := by
  rw [isWhitespace_iff] at h
  rw [Bool.eq_false_iff, Ne, isWordChar_iff]
  omega

theorem ws_not_end {c : Char} (h : c.isWhitespace = true) :
    isSentenceEnd c = false := by
  rw [isWhitespace_iff] at h
  rw [Bool.eq_false_iff, Ne, isSentenceEnd_iff]
  omega

theorem upper_not_ws {c : Char} (h : c.isUpper = true) :
    c.isWhitespace = false := by
  rw [isUpper_iff] at h
  rw [Bool.eq_false_iff, Ne, isWhitespace_iff]
  omega

theorem word_beq_ws {k c : Char} (hk : isWordChar k = true)
    (hc : c.isWhitespace = true) : (k == c) = false := by
  rw [charBeq_eq]
  refine decide_eq_false (fun he => ?_)
  rw [he] at hk
  rw [ws_not_word hc] at hk
  exact Bool.false_ne_true hk

theorem toNat_ofNat_valid (n : Nat) (h : n.isValidChar) :
    (Char.ofNat n).toNat = n := by
  simp [Char.ofNat, h, Char.ofNatAux, Char.toNat, UInt32.toNat, BitVec.toNat_ofNatLt]

theorem toLower_toNat (c : Char) : (Char.toLower c).toNat =
    if 65 ≤ c.toNat ∧ c.toNat ≤ 90 then c.toNat + 32 else c.toNat := by
  rw [show Char.toLower c = (if c.toNat ≥ 65 ∧ c.toNat ≤ 90 then
    Char.ofNat (c.toNat + 32) else c) from rfl]
  by_cases h : 65 ≤ c.toNat ∧ c.toNat ≤ 90
  · rw [if_pos h, if_pos ⟨h.1, h.2⟩]
    exact toNat_ofNat_valid _ (Or.inl (by omega))
  · rw [if_neg (fun hc => h ⟨hc.1, hc.2⟩), if_neg h]

theorem isWordChar_toLower (c : Char) :
    isWordChar (Char.toLower c) = isWordChar c := by
  rw [Bool.eq_iff_iff, isWordChar_iff, isWordChar_iff, toLower_toNat]
  split <;> omega

theorem isWhitespace_toLower (c : Char) :
    (Char.toLower c).isWhitespace = c.isWhitespace := by
  rw [Bool.eq_iff_iff, isWhitespace_iff, isWhitespace_iff, toLower_toNat]
  split <;> omega

/-! Characterisation of the word-boundary keyword search. -/

theorem wordMatchHere_iff : ∀ (kw s : List Char),
    wordMatchHere kw s = true ↔
      ∃ post, s = kw ++ post ∧ ∀ c, post.head? = some c → isWordChar c = false := by
  intro kw
  induction kw with
  | nil =>
    intro s
    cases s with
    | nil =>
      constructor
      · intro _
        exact ⟨[], rfl, fun c hc => by simp at hc⟩
      · intro _
        rfl
    | cons c cs =>
      simp only [wordMatchHere, List.nil_append, Bool.not_eq_true']
      constructor
      · intro h
        refine ⟨c :: cs, rfl, fun d hd => ?_⟩
        simp only [List.head?_cons, Option.some.injEq] at hd
        rw [← hd]
        exact h
      · rintro ⟨post, hpost, hcond⟩
        rw [← hpost] at hcond
        exact hcond c rfl
  | cons k ks ih =>
    intro s
    cases s with
    | nil =>
      simp only [wordMatchHere]
      constructor
      · intro h
        exact absurd h (by simp)
      · rintro ⟨post, hpost, -⟩
        exact absurd hpost (by simp)
    | cons c cs =>
      simp only [wordMatchHere, Bool.and_eq_true, beq_iff_eq]
      constructor
      · rintro ⟨hkc, hmatch⟩
        obtain ⟨post, hpost, hcond⟩ := (ih cs).mp hmatch
        exact ⟨post, by rw [List.cons_append, ← hkc, ← hpost], hcond⟩
      · rintro ⟨post, hpost, hcond⟩
        rw [List.cons_append] at hpost
        injection hpost with h1 h2
        exact ⟨h1.symm, (ih cs).mpr ⟨post, h2, hcond⟩⟩

theorem leftBoundary_iff (leftOk : Bool) (pre : List Char) :
    leftBoundary leftOk pre ↔ ((pre.getLast? = none ∧ leftOk = true) ∨
      ∃ c, pre.getLast? = some c ∧ isWordChar c = false) := by
  unfold leftBoundary
  cases h : pre.getLast? <;> simp [h]

theorem leftBoundary_nil (leftOk : Bool) :
    leftBoundary leftOk [] ↔ leftOk = true := by
  rw [leftBoundary_iff]
  simp

theorem getLast?_cons_ne_none (a : Char) : ∀ (l : List Char),
    (a :: l).getLast? ≠ none := by
  intro l
  induction l generalizing a with
  | nil => simp
  | cons b l ih =>
    rw [List.getLast?_cons_cons]
    exact ih b

theorem leftBoundary_cons (leftOk : Bool) (c : Char) (pre : List Char) :
    leftBoundary leftOk (c :: pre) ↔ leftBoundary (!isWordChar c) pre := by
  cases pre with
  | nil =>
    rw [leftBoundary_iff, leftBoundary_iff]
    simp [List.getLast?_singleton, Bool.not_eq_true']
  | cons d pre1 =>
    rw [leftBoundary_iff, leftBoundary_iff, List.getLast?_cons_cons]
    constructor
    · rintro (⟨hn, -⟩ | h)
      · exact absurd hn (getLast?_cons_ne_none d pre1)
      · exact Or.inr h
    · rintro (⟨hn, -⟩ | h)
      · exact absurd hn (getLast?_cons_ne_none d pre1)
      · exact Or.inr h

theorem searchFrom_iff : ∀ (s kw : List Char) (leftOk : Bool),
    searchFrom kw s leftOk = true ↔
      ∃ pre post, s = pre ++ kw ++ post ∧ leftBoundary leftOk pre ∧
        ∀ c, post.head? = some c → isWordChar c = false := by
  intro s
  induction s with
  | nil =>
    intro kw leftOk
    simp only [searchFrom, Bool.and_eq_true]
    constructor
    · rintro ⟨hlo, hm⟩
      obtain ⟨post, hpost, hcond⟩ := (wordMatchHere_iff kw []).mp hm
      obtain ⟨hkw, hpost0⟩ := List.append_eq_nil.mp hpost.symm
      exact ⟨[], [], by rw [hkw]; rfl, (leftBoundary_nil _).mpr hlo,
        fun c hc => by simp at hc⟩
    · rintro ⟨pre, post, heq, hlb, hrb⟩
      obtain ⟨h2, hpost⟩ := List.append_eq_nil.mp heq.symm
      obtain ⟨hpre, hkw⟩ := List.append_eq_nil.mp h2
      subst hpre
      refine ⟨(leftBoundary_nil _).mp hlb, ?_⟩
      rw [hkw]
      rfl
  | cons c cs ih =>
    intro kw leftOk
    simp only [searchFrom, Bool.or_eq_true, Bool.and_eq_true]
    constructor
    · rintro (⟨hlo, hm⟩ | hrec)
      · obtain ⟨post, hpost, hcond⟩ := (wordMatchHere_iff kw (c :: cs)).mp hm
        exact ⟨[], post, by rw [List.nil_append, hpost],
          (leftBoundary_nil _).mpr hlo, hcond⟩
      · obtain ⟨pre, post, heq, hlb, hrb⟩ := (ih kw (!isWordChar c)).mp hrec
        refine ⟨c :: pre, post, ?_, (leftBoundary_cons _ _ _).mpr hlb, hrb⟩
        rw [List.cons_append, List.cons_append, ← heq]
    · rintro ⟨pre, post, heq, hlb, hrb⟩
      cases pre with
      | nil =>
        left
        rw [List.nil_append] at heq
        exact ⟨(leftBoundary_nil _).mp hlb,
          (wordMatchHere_iff kw (c :: cs)).mpr ⟨post, heq, hrb⟩⟩
      | cons c1 pre1 =>
        right
        rw [List.cons_append, List.cons_append] at heq
        injection heq with h1 h2
        subst h1
        exact (ih kw (!isWordChar c)).mpr
          ⟨pre1, post, h2, (leftBoundary_cons _ _ _).mp hlb, hrb⟩

theorem hasKeyword_iff (kw s : List Char) :
    hasKeyword kw s = true ↔ MatchesWholeWordCI kw s := by
  rw [show hasKeyword kw s = searchFrom kw (s.map Char.toLower) true from rfl,
    searchFrom_iff]
  constructor
  · rintro ⟨pre1, post1, heq, hlb, hrb⟩
    obtain ⟨ab, b, hs, hab, hb⟩ := List.map_eq_append_iff.mp heq
    obtain ⟨a, m, hab2, ha, hm⟩ := List.map_eq_append_iff.mp hab
    refine ⟨a, m, b, by rw [hs, hab2], hm, ?_, ?_⟩
    · intro c hc
      have hpre1 : pre1.getLast? = some (Char.toLower c) := by
        rw [← ha, List.getLast?_map, hc]
        rfl
      rcases (leftBoundary_iff _ _).mp hlb with ⟨hn, -⟩ | ⟨d, hd, hw⟩
      · rw [hpre1] at hn
        exact absurd hn (by simp)
      · rw [hpre1] at hd
        injection hd with hd
        rw [← isWordChar_toLower c, hd]
        exact hw
    · intro c hc
      have hpost1 : post1.head? = some (Char.toLower c) := by
        rw [← hb, List.head?_map, hc]
        rfl
      rw [← isWordChar_toLower c]
      exact hrb _ hpost1
  · rintro ⟨pre, mid, post, hs, hmid, hl, hr⟩
    refine ⟨pre.map Char.toLower, post.map Char.toLower, ?_, ?_, ?_⟩
    · rw [hs]
      simp [hmid]
    · rw [leftBoundary_iff, List.getLast?_map]
      cases hpre : pre.getLast? with
      | none => exact Or.inl ⟨rfl, rfl⟩
      | some c =>
        refine Or.inr ⟨Char.toLower c, rfl, ?_⟩
        rw [isWordChar_toLower]
        exact hl c hpre
    · intro c hc
      rw [List.head?_map] at hc
      cases hpost : post.head? with
      | none =>
        rw [hpost] at hc
        exact absurd hc (by simp)
      | some d =>
        rw [hpost] at hc
        injection hc with hc
        rw [← hc, isWordChar_toLower]
        exact hr d hpost

/-! Invariance of the keyword search under stripping whitespace from the
ends of the sentence. -/

theorem wordMatchHere_append_ws : ∀ (kw s w : List Char),
    (∀ k ∈ kw, isWordChar k = true) → (∀ c ∈ w, c.isWhitespace = true) →
    wordMatchHere kw (s ++ w) = wordMatchHere kw s := by
  intro kw
  induction kw with
  | nil =>
    intro s w hk hw
    cases s with
    | nil =>
      cases w with
      | nil => rfl
      | cons d ds =>
        show (!isWordChar d) = true
        rw [ws_not_word (hw d (List.mem_cons_self d ds))]
        rfl
    | cons c cs => rfl
  | cons k ks ih =>
    intro s w hk hw
    cases s with
    | nil =>
      cases w with
      | nil => rfl
      | cons d ds =>
        show (k == d && wordMatchHere ks ds) = false
        rw [word_beq_ws (hk k (List.mem_cons_self k ks)) (hw d (List.mem_cons_self d ds))]
        rfl
    | cons c cs =>
      show (k == c && wordMatchHere ks (cs ++ w)) = (k == c && wordMatchHere ks cs)
      rw [ih cs w (fun x hx => hk x (List.mem_cons_of_mem k hx)) hw]

theorem searchFrom_all_ws : ∀ (w kw : List Char) (lo : Bool),
    kw ≠ [] → (∀ k ∈ kw, isWordChar k = true) →
    (∀ c ∈ w, c.isWhitespace = true) → searchFrom kw w lo = false := by
  intro w
  induction w with
  | nil =>
    intro kw lo hne hk hw
    cases kw with
    | nil => exact absurd rfl hne
    | cons k ks => simp [searchFrom, wordMatchHere]
  | cons d ds ih =>
    intro kw lo hne hk hw
    cases kw with
    | nil => exact absurd rfl hne
    | cons k ks =>
      show ((lo && wordMatchHere (k :: ks) (d :: ds))
        || searchFrom (k :: ks) ds (!isWordChar d)) = false
      rw [show wordMatchHere (k :: ks) (d :: ds)
        = (k == d && wordMatchHere ks ds) from rfl,
        word_beq_ws (hk k (List.mem_cons_self k ks)) (hw d (List.mem_cons_self d ds))]
      rw [ih (k :: ks) _ hne hk (fun c hc => hw c (List.mem_cons_of_mem d hc))]
      simp

theorem searchFrom_append_ws : ∀ (s w kw : List Char) (lo : Bool), kw ≠ [] →
    (∀ k ∈ kw, isWordChar k = true) → (∀ c ∈ w, c.isWhitespace = true) →
    searchFrom kw (s ++ w) lo = searchFrom kw s lo := by
  intro s
  induction s with
  | nil =>
    intro w kw lo hne hk hw
    rw [List.nil_append, searchFrom_all_ws w kw lo hne hk hw]
    cases kw with
    | nil => exact absurd rfl hne
    | cons k ks => simp [searchFrom, wordMatchHere]
  | cons c cs ih =>
    intro w kw lo hne hk hw
    show ((lo && wordMatchHere kw (c :: cs ++ w))
        || searchFrom kw (cs ++ w) (!isWordChar c))
      = ((lo && wordMatchHere kw (c :: cs)) || searchFrom kw cs (!isWordChar c))
    rw [show c :: cs ++ w = (c :: cs) ++ w from rfl,
      wordMatchHere_append_ws kw (c :: cs) w hk hw, ih w kw _ hne hk hw]

theorem searchFrom_dropWhile : ∀ (s kw : List Char), kw ≠ [] →
    (∀ k ∈ kw, isWordChar k = true) →
    searchFrom kw s true = searchFrom kw (s.dropWhile Char.isWhitespace) true := by
  intro s
  induction s with
  | nil => intro kw _ _; rfl
  | cons c cs ih =>
    intro kw hne hk
    by_cases hc : c.isWhitespace = true
    · rw [List.dropWhile_cons_of_pos hc]
      cases kw with
      | nil => exact absurd rfl hne
      | cons k ks =>
        show ((true && wordMatchHere (k :: ks) (c :: cs))
          || searchFrom (k :: ks) cs (!isWordChar c)) = _
        rw [show wordMatchHere (k :: ks) (c :: cs)
          = (k == c && wordMatchHere ks cs) from rfl,
          word_beq_ws (hk k (List.mem_cons_self k ks)) hc,
          ws_not_word hc]
        simp only [Bool.false_and, Bool.and_false, Bool.false_or, Bool.not_false]
        exact ih (k :: ks) hne hk
    · rw [List.dropWhile_cons_of_neg hc]

theorem map_toLower_pyStrip (s : List Char) :
    (pyStrip s).map Char.toLower = pyStrip (s.map Char.toLower) := by
  have hfun : (Char.isWhitespace ∘ Char.toLower) = Char.isWhitespace :=
    funext isWhitespace_toLower
  unfold pyStrip
  rw [List.dropWhile_map, hfun, ← List.map_reverse, List.dropWhile_map, hfun,
    ← List.map_reverse]

theorem stripRight_decomp (l : List Char) :
    ∃ w, l = (List.dropWhile Char.isWhitespace l.reverse).reverse ++ w ∧
      ∀ c ∈ w, c.isWhitespace = true := by
  refine ⟨(List.takeWhile Char.isWhitespace l.reverse).reverse, ?_, ?_⟩
  · conv_lhs => rw [← l.reverse_reverse,
      ← List.takeWhile_append_dropWhile Char.isWhitespace l.reverse]
    rw [List.reverse_append]
  · intro c hc
    rw [List.mem_reverse] at hc
    exact List.mem_takeWhile_imp hc

theorem hasKeyword_pyStrip (kw s : List Char) (hne : kw ≠ [])
    (hk : ∀ k ∈ kw, isWordChar k = true) :
    hasKeyword kw (pyStrip s) = hasKeyword kw s := by
  show searchFrom kw ((pyStrip s).map Char.toLower) true
    = searchFrom kw ((s.map Char.toLower)) true
  rw [map_toLower_pyStrip]
  obtain ⟨w, hdecomp, hws⟩ :=
    stripRight_decomp ((s.map Char.toLower).dropWhile Char.isWhitespace)
  rw [searchFrom_dropWhile (s.map Char.toLower) kw hne hk, hdecomp,
    searchFrom_append_ws _ w kw true hne hk hws]
  rfl

theorem keywords_wordlike :
    ∀ kw ∈ OBLIGATION_KEYWORDS, kw ≠ [] ∧ ∀ k ∈ kw, isWordChar k = true := by
  decide

theorem contains_pyStrip (s : List Char) :
    contains_obligation_keyword (pyStrip s) = contains_obligation_keyword s := by
  unfold contains_obligation_keyword OBLIGATION_KEYWORDS
  simp only [List.any_cons, List.any_nil]
  rw [hasKeyword_pyStrip _ s (by decide) (by decide),
    hasKeyword_pyStrip _ s (by decide) (by decide),
    hasKeyword_pyStrip _ s (by decide) (by decide),
    hasKeyword_pyStrip _ s (by decide) (by decide)]

theorem foundKeywords_pyStrip (s : List Char) :
    foundKeywords (pyStrip s) = foundKeywords s := by
  unfold foundKeywords
  refine List.filter_congr ?_
  intro kw hkw
  simp only [OBLIGATION_KEYWORDS, List.mem_cons, List.not_mem_nil, or_false] at hkw
  rcases hkw with rfl | rfl | rfl | rfl <;>
    exact hasKeyword_pyStrip _ s (by decide) (by decide)

theorem dropWhile_head_ws (p : Char → Bool) : ∀ (l : List Char) (c : Char),
    (List.dropWhile p l).head? = some c → p c = false := by
  intro l
  induction l with
  | nil => intro c hc; exact absurd hc (by simp)
  | cons a as ih =>
    intro c hc
    by_cases ha : p a = true
    · rw [List.dropWhile_cons_of_pos ha] at hc
      exact ih c hc
    · rw [List.dropWhile_cons_of_neg ha] at hc
      injection hc with hc
      rw [← hc]
      exact Bool.eq_false_iff.mpr ha

theorem dropWhile_idem (p : Char → Bool) : ∀ (l : List Char),
    List.dropWhile p (List.dropWhile p l) = List.dropWhile p l := by
  intro l
  induction l with
  | nil => rfl
  | cons a as ih =>
    by_cases ha : p a = true
    · rw [List.dropWhile_cons_of_pos ha, ih]
    · rw [List.dropWhile_cons_of_neg ha, List.dropWhile_cons_of_neg ha]

theorem pyStrip_idem (s : List Char) : pyStrip (pyStrip s) = pyStrip s := by
  have h1 : List.dropWhile Char.isWhitespace (pyStrip s) = pyStrip s := by
    cases hps : pyStrip s with
    | nil => rfl
    | cons c rest =>
      obtain ⟨w, hdecomp, -⟩ :=
        stripRight_decomp (s.dropWhile Char.isWhitespace)
      have hhead : (s.dropWhile Char.isWhitespace).head? = some c := by
        rw [hdecomp, show ((s.dropWhile Char.isWhitespace).reverse.dropWhile
          Char.isWhitespace).reverse = pyStrip s from rfl, hps]
        rfl
      have hcw : Char.isWhitespace c = false :=
        dropWhile_head_ws Char.isWhitespace s c hhead
      rw [List.dropWhile_cons_of_neg (by rw [hcw]; exact Bool.false_ne_true)]
  show (((pyStrip s).dropWhile Char.isWhitespace).reverse.dropWhile
    Char.isWhitespace).reverse = pyStrip s
  rw [h1]
  rw [show pyStrip s = ((s.dropWhile Char.isWhitespace).reverse.dropWhile
    Char.isWhitespace).reverse from rfl]
  rw [List.reverse_reverse, dropWhile_idem]

/-! The classifier as one pass over the sentences, and its idempotence. -/

theorem process_eq_filterMap : ∀ (ss : List (List Char)),
    process_sentences ss = ss.filterMap perSentence := by
  intro ss
  induction ss with
  | nil => rfl
  | cons s ss ih =>
    show filter_obligations (extract_obligations (s :: ss)) = _
    cases hc : contains_obligation_keyword s
    · have hext : extract_obligations (s :: ss) = extract_obligations ss := by
        unfold extract_obligations
        rw [List.filterMap_cons]
        simp [hc]
      have hps : perSentence s = none := by
        unfold perSentence
        rw [if_neg (by simp [hc])]
      simp only [List.filterMap_cons, hps]
      rw [hext]
      exact ih
    · have hext : extract_obligations (s :: ss)
          = mkObligation s :: extract_obligations ss := by
        unfold extract_obligations
        rw [List.filterMap_cons]
        simp [hc]
      rw [hext]
      cases hk : keepObligation 20 (mkObligation s)
      · have hps : perSentence s = none := by
          unfold perSentence
          rw [if_pos hc, if_neg (by simp [hk])]
        simp only [List.filterMap_cons, hps]
        show List.filter (keepObligation 20)
          (mkObligation s :: extract_obligations ss) = _
        rw [List.filter_cons_of_neg (by simp [hk])]
        exact ih
      · have hps : perSentence s = some (mkObligation s) := by
          unfold perSentence
          rw [if_pos hc, if_pos hk]
        simp only [List.filterMap_cons, hps]
        show List.filter (keepObligation 20)
          (mkObligation s :: extract_obligations ss) = _
        rw [List.filter_cons_of_pos hk]
        rw [show List.filter (keepObligation 20) (extract_obligations ss)
          = process_sentences ss from rfl, ih]

theorem perSentence_fixed {s : List Char} {r : Obligation}
    (h : perSentence s = some r) : perSentence r.text = some r := by
  unfold perSentence at h
  cases hc : contains_obligation_keyword s <;> rw [hc] at h
  · rw [if_neg (by simp)] at h
    exact absurd h (by simp)
  · rw [if_pos rfl] at h
    cases hk : keepObligation 20 (mkObligation s) <;> rw [hk] at h
    · rw [if_neg (by simp)] at h
      exact absurd h (by simp)
    · rw [if_pos rfl] at h
      injection h with h
      have hmk : mkObligation (pyStrip s) = mkObligation s := by
        unfold mkObligation
        rw [pyStrip_idem, foundKeywords_pyStrip]
      have htext : r.text = pyStrip s := by
        rw [← h]
        exact rfl
      unfold perSentence
      rw [htext, contains_pyStrip, hc, if_pos rfl, hmk, hk, if_pos rfl, h]

theorem filterMap_perSentence_fixed : ∀ (l : List Obligation),
    (∀ r ∈ l, perSentence r.text = some r) →
    (l.map Obligation.text).filterMap perSentence = l := by
  intro l
  induction l with
  | nil => intro _; rfl
  | cons r l ih =>
    intro h
    rw [List.map_cons, List.filterMap_cons, h r (List.mem_cons_self r l)]
    rw [ih (fun x hx => h x (List.mem_cons_of_mem r hx))]

/-! Soundness of the sentence split: every cut the splitter makes is at a
punctuation-whitespace-capital boundary, and only whitespace is consumed. -/

theorem mem_of_getLast?_eq : ∀ (l : List Char) (a : Char),
    l.getLast? = some a → a ∈ l := by
  intro l
  induction l with
  | nil => intro a h; exact absurd h (by simp)
  | cons b l2 ih =>
    intro a h
    cases l2 with
    | nil =>
      rw [List.getLast?_singleton] at h
      injection h with h
      rw [← h]
      exact List.mem_cons_self b []
    | cons c l3 =>
      rw [List.getLast?_cons_cons] at h
      exact List.mem_cons_of_mem b (ih a h)

theorem reSplitGo_eq_ws {acc pend : List Char} {c : Char} (cs : List Char)
    (hc : c.isWhitespace = true) :
    reSplitGo acc pend (c :: cs) = reSplitGo acc (c :: pend) cs := by
  conv_lhs => rw [reSplitGo]
  rw [if_pos hc]

theorem reSplitGo_eq_split {acc pend : List Char} {c : Char} (cs : List Char)
    (hc : ¬c.isWhitespace = true)
    (hsp : (!pend.isEmpty
      && (match acc.head? with | some p => isSentenceEnd p | none => false)
      && c.isUpper) = true) :
    reSplitGo acc pend (c :: cs) = acc.reverse :: reSplitGo [c] [] cs := by
  conv_lhs => rw [reSplitGo]
  rw [if_neg hc, if_pos hsp]

theorem reSplitGo_eq_flush {acc pend : List Char} {c : Char} (cs : List Char)
    (hc : ¬c.isWhitespace = true)
    (hsp : ¬(!pend.isEmpty
      && (match acc.head? with | some p => isSentenceEnd p | none => false)
      && c.isUpper) = true) :
    reSplitGo acc pend (c :: cs) = reSplitGo (c :: (pend ++ acc)) [] cs := by
  conv_lhs => rw [reSplitGo]
  rw [if_neg hc, if_neg hsp]

theorem reSplitGo_splitSpec : ∀ (s acc pend : List Char),
    (∀ c ∈ pend, c.isWhitespace = true) →
    SplitSpec (acc.reverse ++ pend.reverse ++ s) (reSplitGo acc pend s) := by
  intro s
  induction s with
  | nil =>
    intro acc pend hpend
    show SplitSpec _ [(pend ++ acc).reverse]
    rw [List.append_nil, List.reverse_append]
    exact SplitSpec.single _
  | cons c cs ih =>
    intro acc pend hpend
    by_cases hc : c.isWhitespace = true
    · rw [reSplitGo_eq_ws cs hc, List.append_cons, List.append_assoc acc.reverse,
        ← List.reverse_cons]
      exact ih acc (c :: pend) (fun x hx => by
        rcases List.mem_cons.mp hx with rfl | hx
        · exact hc
        · exact hpend x hx)
    · by_cases hsp : (!pend.isEmpty
        && (match acc.head? with | some p => isSentenceEnd p | none => false)
        && c.isUpper) = true
      · rw [reSplitGo_eq_split cs hc hsp]
        simp only [Bool.and_eq_true, Bool.not_eq_true', List.isEmpty_eq_false] at hsp
        obtain ⟨⟨hpendne, hterm⟩, hupper⟩ := hsp
        have hterm2 : ∃ p, acc.reverse.getLast? = some p ∧ isSentenceEnd p = true := by
          rw [List.getLast?_reverse]
          cases hacc : acc.head? with
          | none => rw [hacc] at hterm; exact absurd hterm (by simp)
          | some p =>
            rw [hacc] at hterm
            exact ⟨p, rfl, hterm⟩
        have hrest := ih [c] [] (by simp)
        simp only [List.reverse_cons, List.reverse_nil, List.nil_append,
          List.append_nil] at hrest
        exact SplitSpec.boundary acc.reverse pend.reverse (c :: cs)
          (reSplitGo [c] [] cs)
          (fun h => hpendne (List.reverse_eq_nil_iff.mp h))
          (fun x hx => hpend x (List.mem_reverse.mp hx))
          hterm2 ⟨c, rfl, hupper⟩ hrest
      · rw [reSplitGo_eq_flush cs hc hsp]
        have := ih (c :: (pend ++ acc)) [] (by simp)
        simp only [List.reverse_cons, List.reverse_append, List.reverse_nil,
          List.append_nil] at this
        rw [List.append_cons]
        exact this

theorem reSplit_splitSpec (s : List Char) : SplitSpec s (reSplit s) := by
  have h := reSplitGo_splitSpec s [] [] (by simp)
  simpa using h

/-! Completeness of the sentence split: no output segment still contains a
punctuation-whitespace-capital boundary. -/

theorem dropWhile_eq_nil_all (p : Char → Bool) : ∀ (l : List Char),
    (∀ c ∈ l, p c = true) → l.dropWhile p = [] := by
  intro l
  induction l with
  | nil => intro _; rfl
  | cons a as ih =>
    intro h
    rw [List.dropWhile_cons_of_pos (h a (List.mem_cons_self a as))]
    exact ih (fun c hc => h c (List.mem_cons_of_mem a hc))

theorem all_of_dropWhile_eq_nil (p : Char → Bool) : ∀ (l : List Char),
    l.dropWhile p = [] → ∀ c ∈ l, p c = true := by
  intro l
  induction l with
  | nil => intro _ c hc; exact absurd hc (by simp)
  | cons a as ih =>
    intro h c hc
    by_cases ha : p a = true
    · rw [List.dropWhile_cons_of_pos ha] at h
      rcases List.mem_cons.mp hc with rfl | hc
      · exact ha
      · exact ih h c hc
    · rw [List.dropWhile_cons_of_neg ha] at h
      exact absurd h (by simp)

theorem dropWhile_append_cons (p : Char → Bool) : ∀ (l r : List Char)
    (u : Char) (rest : List Char), l.dropWhile p = u :: rest →
    (l ++ r).dropWhile p = u :: (rest ++ r) := by
  intro l
  induction l with
  | nil => intro r u rest h; exact absurd h (by simp)
  | cons a as ih =>
    intro r u rest h
    by_cases ha : p a = true
    · rw [List.dropWhile_cons_of_pos ha] at h
      rw [List.cons_append, List.dropWhile_cons_of_pos ha]
      exact ih r u rest h
    · rw [List.dropWhile_cons_of_neg ha] at h
      injection h with h1 h2
      rw [List.cons_append, List.dropWhile_cons_of_neg ha, h1, h2]

theorem dropWhile_append_all (p : Char → Bool) : ∀ (w r : List Char),
    (∀ c ∈ w, p c = true) → (w ++ r).dropWhile p = r.dropWhile p := by
  intro w
  induction w with
  | nil => intro r _; rfl
  | cons a as ih =>
    intro r h
    rw [List.cons_append,
      List.dropWhile_cons_of_pos (h a (List.mem_cons_self a as))]
    exact ih r (fun c hc => h c (List.mem_cons_of_mem a hc))

theorem boundaryAt_nil (a : Char) : boundaryAt a [] = false := by
  simp [boundaryAt]

theorem boundaryAt_cons (a d : Char) (ds : List Char) :
    boundaryAt a (d :: ds) = (isSentenceEnd a && d.isWhitespace
      && (match (d :: ds).dropWhile Char.isWhitespace with
          | u :: _ => u.isUpper | [] => false)) := rfl

theorem boundaryAt_not_end {a : Char} (h : isSentenceEnd a = false)
    (cs : List Char) : boundaryAt a cs = false := by
  unfold boundaryAt
  rw [h]
  simp

theorem upperAfter_append_ws : ∀ (x w : List Char),
    (∀ c ∈ w, c.isWhitespace = true) →
    (match (x ++ w).dropWhile Char.isWhitespace with
      | u :: _ => u.isUpper | [] => false)
    = (match x.dropWhile Char.isWhitespace with
      | u :: _ => u.isUpper | [] => false) := by
  intro x w hw
  cases hx : x.dropWhile Char.isWhitespace with
  | nil =>
    have hxall := all_of_dropWhile_eq_nil Char.isWhitespace x hx
    have : (x ++ w).dropWhile Char.isWhitespace = [] :=
      dropWhile_eq_nil_all Char.isWhitespace (x ++ w) (fun c hc => by
        rcases List.mem_append.mp hc with hc | hc
        · exact hxall c hc
        · exact hw c hc)
    rw [this]
  | cons u rest =>
    rw [dropWhile_append_cons Char.isWhitespace x w u rest hx]

theorem boundaryAt_append_ws : ∀ (a : Char) (x w : List Char),
    (∀ c ∈ w, c.isWhitespace = true) →
    boundaryAt a (x ++ w) = boundaryAt a x := by
  intro a x w hw
  cases x with
  | nil =>
    rw [List.nil_append, boundaryAt_nil]
    cases w with
    | nil => exact boundaryAt_nil a
    | cons d ds =>
      rw [boundaryAt_cons,
        dropWhile_eq_nil_all Char.isWhitespace (d :: ds) hw]
      simp
  | cons e x2 =>
    rw [List.cons_append, boundaryAt_cons, boundaryAt_cons,
      ← List.cons_append, upperAfter_append_ws (e :: x2) w hw]

theorem hasBoundary_all_ws : ∀ (w : List Char),
    (∀ c ∈ w, c.isWhitespace = true) → hasBoundary w = false := by
  intro w
  induction w with
  | nil => intro _; rfl
  | cons d ds ih =>
    intro h
    show (boundaryAt d ds || hasBoundary ds) = false
    rw [boundaryAt_not_end (ws_not_end (h d (List.mem_cons_self d ds))) ds,
      ih (fun c hc => h c (List.mem_cons_of_mem d hc))]
    rfl

theorem hasBoundary_append_ws : ∀ (x w : List Char),
    (∀ c ∈ w, c.isWhitespace = true) →
    hasBoundary (x ++ w) = hasBoundary x := by
  intro x
  induction x with
  | nil =>
    intro w hw
    rw [List.nil_append, hasBoundary_all_ws w hw]
    rfl
  | cons a x2 ih =>
    intro w hw
    show (boundaryAt a (x2 ++ w) || hasBoundary (x2 ++ w))
      = (boundaryAt a x2 || hasBoundary x2)
    rw [boundaryAt_append_ws a x2 w hw, ih w hw]

theorem hasBoundary_ws_append_single : ∀ (w : List Char) (c : Char),
    (∀ d ∈ w, d.isWhitespace = true) → hasBoundary (w ++ [c]) = false := by
  intro w
  induction w with
  | nil =>
    intro c _
    show (boundaryAt c [] || false) = false
    rw [boundaryAt_nil]
    rfl
  | cons d ds ih =>
    intro c h
    show (boundaryAt d (ds ++ [c]) || hasBoundary (ds ++ [c])) = false
    rw [boundaryAt_not_end (ws_not_end (h d (List.mem_cons_self d ds))),
      ih c (fun x hx => h x (List.mem_cons_of_mem d hx))]
    rfl

theorem hasBoundary_flush : ∀ (x w : List Char) (c : Char),
    hasBoundary x = false → (∀ d ∈ w, d.isWhitespace = true) →
    c.isWhitespace = false →
    (x = [] ∨ ∃ d, x.getLast? = some d ∧ d.isWhitespace = false) →
    ¬(w ≠ [] ∧ (∃ p, x.getLast? = some p ∧ isSentenceEnd p = true)
        ∧ c.isUpper = true) →
    hasBoundary (x ++ (w ++ [c])) = false := by
  intro x
  induction x with
  | nil =>
    intro w c _ hw hc _ _
    rw [List.nil_append]
    exact hasBoundary_ws_append_single w c hw
  | cons a x2 ih =>
    intro w c hx hw hc hlast hexcl
    have hx2 : boundaryAt a x2 = false ∧ hasBoundary x2 = false := by
      have h0 : (boundaryAt a x2 || hasBoundary x2) = false := hx
      simp only [Bool.or_eq_false_iff] at h0
      exact h0
    cases x2 with
    | nil =>
      show (boundaryAt a (w ++ [c]) || hasBoundary (w ++ [c])) = false
      rw [hasBoundary_ws_append_single w c hw]
      cases w with
      | nil =>
        rw [List.nil_append, boundaryAt_cons, hc]
        simp
      | cons d ds =>
        rw [show ((d :: ds : List Char) ++ [c]) = d :: (ds ++ [c]) from rfl,
          boundaryAt_cons]
        have hdrop : (d :: (ds ++ [c])).dropWhile Char.isWhitespace = [c] := by
          rw [show (d :: (ds ++ [c]) : List Char) = (d :: ds) ++ [c] from rfl,
            dropWhile_append_all Char.isWhitespace (d :: ds) [c] hw,
            List.dropWhile_cons_of_neg (by rw [hc]; exact Bool.false_ne_true)]
        rw [hdrop]
        cases hse : isSentenceEnd a with
        | false => rfl
        | true =>
          have hcu : c.isUpper = false := by
            cases hcu : c.isUpper with
            | false => rfl
            | true =>
              exact absurd ⟨List.cons_ne_nil d ds,
                ⟨a, rfl, hse⟩, hcu⟩ hexcl
          rw [show (match ([c] : List Char) with
            | u :: _ => u.isUpper | [] => false) = c.isUpper from rfl, hcu]
          simp
    | cons e x3 =>
      show (boundaryAt a ((e :: x3) ++ (w ++ [c]))
        || hasBoundary ((e :: x3) ++ (w ++ [c]))) = false
      have hlast2 : ∃ d, (e :: x3).getLast? = some d ∧ d.isWhitespace = false := by
        rcases hlast with h | ⟨d, hd, hdw⟩
        · exact absurd h (by simp)
        · rw [List.getLast?_cons_cons] at hd
          exact ⟨d, hd, hdw⟩
      have hrec : hasBoundary ((e :: x3) ++ (w ++ [c])) = false := by
        refine ih w c hx2.2 hw hc (Or.inr hlast2) ?_
        rintro ⟨hwne, ⟨p, hp, hpe⟩, hcu⟩
        exact hexcl ⟨hwne, ⟨p, by rw [List.getLast?_cons_cons, hp], hpe⟩, hcu⟩
      have hhead : boundaryAt a ((e :: x3) ++ (w ++ [c])) = false := by
        cases hdx : (e :: x3).dropWhile Char.isWhitespace with
        | nil =>
          exfalso
          have hall := all_of_dropWhile_eq_nil Char.isWhitespace (e :: x3) hdx
          obtain ⟨d, hd, hdw⟩ := hlast2
          have hmem : d ∈ e :: x3 := mem_of_getLast?_eq (e :: x3) d hd
          rw [hall d hmem] at hdw
          exact absurd hdw (by simp)
        | cons u rest =>
          rw [show ((e :: x3 : List Char) ++ (w ++ [c]))
            = e :: (x3 ++ (w ++ [c])) from rfl, boundaryAt_cons]
          rw [boundaryAt_cons, hdx] at hx2
          have hdrop2 : (e :: (x3 ++ (w ++ [c]))).dropWhile Char.isWhitespace
              = u :: (rest ++ (w ++ [c])) := by
            rw [show (e :: (x3 ++ (w ++ [c])) : List Char)
              = (e :: x3) ++ (w ++ [c]) from rfl]
            exact dropWhile_append_cons Char.isWhitespace (e :: x3)
              (w ++ [c]) u rest hdx
          rw [hdrop2]
          exact hx2.1
      rw [hrec, hhead]
      rfl

theorem reSplitGo_noBoundary : ∀ (s acc pend : List Char),
    (∀ c ∈ pend, c.isWhitespace = true) →
    hasBoundary acc.reverse = false →
    (acc = [] ∨ ∃ d, acc.head? = some d ∧ d.isWhitespace = false) →
    ∀ seg ∈ reSplitGo acc pend s, hasBoundary seg = false := by
  intro s
  induction s with
  | nil =>
    intro acc pend hpend hacc _ seg hseg
    have : seg = (pend ++ acc).reverse := by
      have h0 : reSplitGo acc pend [] = [(pend ++ acc).reverse] := rfl
      rw [h0] at hseg
      simpa using hseg
    rw [this, List.reverse_append]
    rw [hasBoundary_append_ws acc.reverse pend.reverse
      (fun c hc => hpend c (List.mem_reverse.mp hc))]
    exact hacc
  | cons c cs ih =>
    intro acc pend hpend hacc hhd seg hseg
    by_cases hc : c.isWhitespace = true
    · rw [reSplitGo_eq_ws cs hc] at hseg
      exact ih acc (c :: pend) (fun x hx => by
        rcases List.mem_cons.mp hx with rfl | hx
        · exact hc
        · exact hpend x hx) hacc hhd seg hseg
    · by_cases hsp : (!pend.isEmpty
        && (match acc.head? with | some p => isSentenceEnd p | none => false)
        && c.isUpper) = true
      · rw [reSplitGo_eq_split cs hc hsp] at hseg
        rcases List.mem_cons.mp hseg with rfl | hseg
        · exact hacc
        · simp only [Bool.and_eq_true] at hsp
          refine ih [c] [] (by simp) ?_ ?_ seg hseg
          · show (boundaryAt c [] || false) = false
            rw [boundaryAt_nil]
            rfl
          · exact Or.inr ⟨c, rfl, upper_not_ws hsp.2⟩
      · rw [reSplitGo_eq_flush cs hc hsp] at hseg
        refine ih (c :: (pend ++ acc)) [] (by simp) ?_ ?_ seg hseg
        · rw [List.reverse_cons, List.reverse_append, List.append_assoc]
          refine hasBoundary_flush acc.reverse pend.reverse c hacc
            (fun d hd => hpend d (List.mem_reverse.mp hd))
            (Bool.eq_false_iff.mpr hc) ?_ ?_
          · rcases hhd with rfl | ⟨d, hd, hdw⟩
            · exact Or.inl (by simp)
            · refine Or.inr ⟨d, ?_, hdw⟩
              rw [List.getLast?_reverse]
              exact hd
          · rintro ⟨hwne, ⟨p, hp, hpe⟩, hcu⟩
            apply hsp
            rw [List.getLast?_reverse] at hp
            have h1 : (!pend.isEmpty) = true := by
              rw [Bool.not_eq_true', List.isEmpty_eq_false]
              intro hpn
              exact hwne (by rw [hpn]; rfl)
            have h2 : (match acc.head? with
              | some p => isSentenceEnd p | none => false) = true := by
              rw [hp]
              exact hpe
            rw [h1, h2, hcu]
            rfl
        · exact Or.inr ⟨c, rfl, Bool.eq_false_iff.mpr hc⟩

theorem reSplit_noBoundary (s : List Char) :
    ∀ seg ∈ reSplit s, hasBoundary seg = false :=
  reSplitGo_noBoundary s [] [] (by simp) rfl (Or.inl rfl)

/-! The claims. -/

/-- C1: the classifier matches exactly the fixed keyword set
`{must, shall, required, mandatory}`, case-insensitively and as whole
words only (`hasKeyword` agrees with the spec-worded predicate
`MatchesWholeWordCI` on every keyword); a sentence with zero matches
produces no record; and each surviving record's keywords field is the
matching keywords in declaration order joined by a comma and a space. -/
theorem keyword_match_spec (s : List Char) :
    ((∀ kw ∈ OBLIGATION_KEYWORDS, ¬ MatchesWholeWordCI kw s) →
      extract_obligations [s] = []) ∧
    (∀ kw ∈ OBLIGATION_KEYWORDS,
      (hasKeyword kw s = true ↔ MatchesWholeWordCI kw s)) ∧
    (∀ ob ∈ extract_obligations [s],
      ob.keywords = joinComma (OBLIGATION_KEYWORDS.filter
        (fun kw => hasKeyword kw s))) := by
  refine ⟨?_, fun kw _ => hasKeyword_iff kw s, ?_⟩
  · intro hno
    have hc : contains_obligation_keyword s = false := by
      cases hcc : contains_obligation_keyword s with
      | false => rfl
      | true =>
        exfalso
        obtain ⟨kw, hkw, hhas⟩ := List.any_eq_true.mp hcc
        exact hno kw hkw ((hasKeyword_iff kw s).mp hhas)
    unfold extract_obligations
    rw [List.filterMap_cons]
    simp [hc]
  · intro ob hob
    unfold extract_obligations at hob
    rw [List.filterMap_cons] at hob
    cases hc : contains_obligation_keyword s <;> rw [hc] at hob <;>
      simp only [List.filterMap_nil] at hob
    · exact absurd hob (by simp)
    · have : ob = mkObligation s := by simpa using hob
      rw [this]
      rfl

/-- Witness for C1 at a concrete sentence: the record obtained for a
sentence containing the keywords is tagged exactly with the declaration
ordered matches. -/
theorem keyword_match_spec_witness :
    (mkObligation ("Users must comply.".data)).keywords
      = joinComma (OBLIGATION_KEYWORDS.filter
        (fun kw => hasKeyword kw ("Users must comply.".data))) :=
  (keyword_match_spec ("Users must comply.".data)).2.2
    (mkObligation ("Users must comply.".data)) (by decide)

/-- C2: the quality filter keeps a record exactly when all three tests
pass: the text is at least the configurable minimum length (default 20,
the value used by `process_sentences`), it is not an all-upper-case text
shorter than 100 characters, and at least 50% of its characters are
alphabetic. -/
theorem quality_filter_spec (min_length : Nat) (ob : Obligation) :
    keepObligation min_length ob = true ↔
      (min_length ≤ ob.text.length ∧
        ¬(pyIsUpper ob.text = true ∧ ob.text.length < 100) ∧
        ob.text.length ≤ 2 * countAlpha ob.text) := by
  unfold keepObligation
  by_cases h1 : ob.text.length < min_length
  · rw [if_pos h1]
    constructor
    · intro h
      exact absurd h (by simp)
    · rintro ⟨hmin, -, -⟩
      exact absurd hmin (not_le.mpr h1)
  · rw [if_neg h1]
    by_cases h2 : (pyIsUpper ob.text && decide (ob.text.length < 100)) = true
    · rw [if_pos h2]
      simp only [Bool.and_eq_true, decide_eq_true_eq] at h2
      constructor
      · intro h
        exact absurd h (by simp)
      · rintro ⟨-, hnc, -⟩
        exact absurd h2 hnc
    · rw [if_neg h2]
      simp only [Bool.and_eq_true, decide_eq_true_eq] at h2
      by_cases h3 : 2 * countAlpha ob.text < ob.text.length
      · rw [if_pos h3]
        constructor
        · intro h
          exact absurd h (by simp)
        · rintro ⟨-, -, hr⟩
          exact absurd hr (by omega)
      · rw [if_neg h3]
        constructor
        · intro _
          exact ⟨by omega, h2, by omega⟩
        · intro _
          rfl

/-- Witness for C2: a concrete record passing all three tests is kept. -/
theorem quality_filter_spec_witness :
    keepObligation 20
      (⟨"Users must comply with all policies.".data, "must".data⟩ : Obligation)
      = true :=
  (quality_filter_spec 20 _).mpr (by refine ⟨?_, ?_, ?_⟩ <;> decide)

/-- C5: the classifier is a single order-preserving pass: its output is
`filterMap` of the per-sentence outcome over the input list, so records
appear exactly in the order of the sentences that produced them. -/
theorem classifier_order_spec (ss : List (List Char)) :
    process_sentences ss = ss.filterMap perSentence :=
  process_eq_filterMap ss

/-- C4: the classifier is idempotent: re-running it on the text values of
its own output returns the same records unchanged. -/
theorem classifier_idempotent (ss : List (List Char)) :
    process_sentences ((process_sentences ss).map Obligation.text)
      = process_sentences ss := by
  rw [process_eq_filterMap ss, process_eq_filterMap]
  exact filterMap_perSentence_fixed _ (fun r hr => by
    obtain ⟨s, -, hps⟩ := List.mem_filterMap.mp hr
    exact perSentence_fixed hps)

/-- C9: the quality filter never modifies a record: its output is a
subsequence of its input (kept records identical, relative order
preserved). -/
theorem filter_frame_spec (obs : List Obligation) (m : Nat) :
    (filter_obligations obs m).Sublist obs :=
  List.filter_sublist obs

/-- C10: on a text with no cased characters the all-caps test never fires
(`pyIsUpper` is false), and the filter outcome is decided by the length
and alphabetic-ratio tests alone. -/
theorem allcaps_uncased_spec (m : Nat) (ob : Obligation)
    (h : ∀ c ∈ ob.text, c.isUpper = false ∧ c.isLower = false) :
    pyIsUpper ob.text = false ∧
    keepObligation m ob = (decide (m ≤ ob.text.length)
      && decide (ob.text.length ≤ 2 * countAlpha ob.text)) := by
  have hup : pyIsUpper ob.text = false := by
    have h1 : ob.text.any (fun c => c.isUpper || c.isLower) = false := by
      rw [List.any_eq_false]
      intro c hc
      simp [(h c hc).1, (h c hc).2]
    unfold pyIsUpper
    rw [h1]
    rfl
  refine ⟨hup, ?_⟩
  unfold keepObligation
  by_cases h1 : ob.text.length < m
  · rw [if_pos h1, show decide (m ≤ ob.text.length) = false from
      decide_eq_false (by omega)]
    rfl
  · rw [if_neg h1, hup, if_neg (by simp)]
    by_cases h3 : 2 * countAlpha ob.text < ob.text.length
    · rw [if_pos h3, show decide (ob.text.length ≤ 2 * countAlpha ob.text)
        = false from decide_eq_false (by omega)]
      simp
    · rw [if_neg h3, show decide (m ≤ ob.text.length) = true from
        decide_eq_true (by omega),
        show decide (ob.text.length ≤ 2 * countAlpha ob.text) = true from
        decide_eq_true (by omega)]
      rfl

/-- Witness for C10: a concrete record made only of digits, spaces and
punctuation is not caught by the all-caps test; it is dropped by the
ratio test alone. -/
theorem allcaps_uncased_spec_witness :
    pyIsUpper ((⟨"123-456 789 0123 456!".data, "must".data⟩ : Obligation).text)
      = false ∧
    keepObligation 20 (⟨"123-456 789 0123 456!".data, "must".data⟩ : Obligation)
      = (decide (20 ≤ ((⟨"123-456 789 0123 456!".data, "must".data⟩ :
            Obligation).text).length)
        && decide (((⟨"123-456 789 0123 456!".data, "must".data⟩ :
            Obligation).text).length
          ≤ 2 * countAlpha ((⟨"123-456 789 0123 456!".data, "must".data⟩ :
            Obligation).text))) :=
  allcaps_uncased_spec 20 _ (by decide)

/-- C7: segmentation and classification are total by construction in this
embedding; on the empty string the segmenter returns the empty list, and
on the empty sentence list the classifier returns the empty list. -/
theorem totality_empty_spec :
    split_into_sentences ("".data) = [] ∧ process_sentences [] = [] :=
  ⟨rfl, rfl⟩

/-- C6: every sentence the segmenter outputs equals its own trim and is
strictly longer than 10 characters. -/
theorem sentence_invariant_spec (text : List Char) :
    ∀ s ∈ split_into_sentences text, pyStrip s = s ∧ 10 < s.length := by
  intro s hs
  simp only [split_into_sentences, List.mem_filter, List.mem_map,
    Bool.and_eq_true, decide_eq_true_eq] at hs
  obtain ⟨⟨seg, -, hseg⟩, -, hlen⟩ := hs
  exact ⟨by rw [← hseg, pyStrip_idem], hlen⟩

/-- Witness for C6 at a concrete document. -/
theorem sentence_invariant_spec_witness :
    pyStrip ("All users must comply now.".data)
      = "All users must comply now.".data
    ∧ 10 < ("All users must comply now.".data).length :=
  sentence_invariant_spec ("All users must comply now.".data)
    ("All users must comply now.".data) (by decide)

/-- Counterexample to C3 as stated: the terminal punctuation mark is NOT
consumed by the split — it remains at the end of the preceding segment,
as this concrete run shows ('.' is in the first output segment). -/
theorem split_consumes_punct_counterexample :
    split_into_sentences
        ("All users must comply. Vendors shall comply too.".data)
      = ["All users must comply.".data, "Vendors shall comply too.".data]
    ∧ '.' ∈ "All users must comply.".data := by
  constructor
  · rfl
  · decide

/-- C3 (amended): segmentation splits exactly at boundaries where
sentence-terminal punctuation is immediately followed by whitespace and
then an upper-case letter; the whitespace is consumed by the split while
the punctuation mark stays at the end of the preceding segment and the
capital letter starts the next segment (`SplitSpec`), and no such
boundary survives inside any output segment (`hasBoundary` is false). -/
theorem split_boundary_spec (text : List Char) :
    SplitSpec (collapseWs (pyStrip text)) (reSplit (collapseWs (pyStrip text)))
    ∧ ∀ seg ∈ reSplit (collapseWs (pyStrip text)), hasBoundary seg = false :=
  ⟨reSplit_splitSpec _, reSplit_noBoundary _⟩

/-- Witness for C3 (amended) at a concrete document. -/
theorem split_boundary_spec_witness :
    hasBoundary ("Vendors shall comply too.".data) = false :=
  (split_boundary_spec
      ("All users must comply. Vendors shall comply too.".data)).2
    ("Vendors shall comply too.".data) (by decide)

/-- Length of the rows built by the export enumeration loop. -/
theorem rowsFrom_length (src : List Char) : ∀ (obs : List Obligation)
    (k : Nat), (rowsFrom src k obs).length = obs.length := by
  intro obs
  induction obs with
  | nil => intro k; rfl
  | cons ob rest ih =>
    intro k
    show (rowsFrom src k (ob :: rest)).length = rest.length + 1
    rw [show rowsFrom src k (ob :: rest)
      = mkRow k src ob :: rowsFrom src (k + 1) rest from rfl]
    rw [List.length_cons, ih (k + 1)]

/-- Row `i` of the export enumeration loop started at counter `k`. -/
theorem rowsFrom_getElem (src : List Char) : ∀ (obs : List Obligation)
    (k i : Nat), (rowsFrom src k obs)[i]?
      = (obs[i]?).map (fun ob => mkRow (k + i) src ob) := by
  intro obs
  induction obs with
  | nil => intro k i; simp [rowsFrom]
  | cons ob rest ih =>
    intro k i
    rw [show rowsFrom src k (ob :: rest)
      = mkRow k src ob :: rowsFrom src (k + 1) rest from rfl]
    cases i with
    | zero => simp [List.getElem?_cons_zero]
    | succ j =>
      rw [List.getElem?_cons_succ, List.getElem?_cons_succ, ih (k + 1) j,
        show k + 1 + j = k + (j + 1) from by omega]

/-- C8: every exported row `i` (0-based) carries the one-based identifier
`OBL-` with the row number zero-padded to 3 digits, the obligation text,
the source-document label, the comma-joined keyword string, and the
sentinel `Not Started` in the Owner, Next Due Date and Status columns;
the row count equals the obligation count (identifiers are reassigned
fresh on each call, starting from 1). -/
theorem export_rows_spec (obs : List Obligation) (src : List Char) :
    (create_obligation_dataframe obs src).length = obs.length ∧
    ∀ (i : Nat) (ob : Obligation), obs[i]? = some ob →
      (create_obligation_dataframe obs src)[i]? = some
        ⟨formatOblId (i + 1), ob.text, src, ob.keywords,
          notStarted, notStarted, notStarted⟩ := by
  constructor
  · exact rowsFrom_length src obs 1
  · intro i ob hob
    show (rowsFrom src 1 obs)[i]? = _
    rw [rowsFrom_getElem src obs 1 i, hob,
      show (1 : Nat) + i = i + 1 from by omega]
    rfl

/-- Witness for C8: the first exported row of a one-record list, with the
identifier evaluated to `OBL-001` and the three sentinel columns. -/
theorem export_rows_spec_witness :
    (create_obligation_dataframe
        [⟨"Users must comply with policy.".data, "must".data⟩]
        ("doc.pdf".data))[0]?
      = some ⟨"OBL-001".data, "Users must comply with policy.".data,
          "doc.pdf".data, "must".data,
          notStarted, notStarted, notStarted⟩ :=
  (export_rows_spec [⟨"Users must comply with policy.".data, "must".data⟩]
      ("doc.pdf".data)).2 0
    ⟨"Users must comply with policy.".data, "must".data⟩ (by decide)

end ComplianceAssistant
